import Mathlib

/-!
Verification of the text-extraction-and-layout pipeline of the article
summary generator.

The development shallowly embeds the relevant TypeScript sources:
- `src/lib/utils.ts` (`wrapText`, the greedy word wrap);
- `src/actions/png/generate-png-actions.ts` (bullet parsing, bullet layout,
  the fixed A4 canvas);
- `src/actions/ai/fetch-article-actions.ts` (URL gate, HTTP outcome mapping,
  DOM reduction, content-root selection, text collection, sufficiency check,
  newline normalization).

JavaScript strings are modelled as lists of characters; canvas text metrics
(doubles in the runtime) are modelled as exact rationals supplied by an
abstract measuring function, and the DOM produced by the cheerio HTML loader
is modelled as a forest of element and text nodes.
-/

namespace SummaryPipeline

/-- JavaScript strings, modelled as lists of characters. -/
abbrev JSString := List Char

/-! ## Splitting and joining on a separator character

Models `String.prototype.split(sep)` and `Array.prototype.join(sep)` for a
one-character separator, as used with a space by `wrapText` and with a
newline by the bullet parser and the extraction pipeline. -/

/-- Model of JavaScript `text.split(sep)` for a single-character separator:
always returns a non-empty list of separator-free segments; the empty string
yields one empty segment. -/
def splitSep (sep : Char) : JSString → List JSString
  | [] => [[]]
  | c :: cs =>
    if c = sep then [] :: splitSep sep cs
    else
      match splitSep sep cs with
      | [] => [[c]]
      | w :: ws => (c :: w) :: ws

/-- Tail part of `joinSep`: prepends the separator before every segment. -/
def tailJoinSep (sep : Char) : List JSString → JSString
  | [] => []
  | w :: ws => sep :: (w ++ tailJoinSep sep ws)

/-- Model of JavaScript `segments.join(sep)` for a one-character separator. -/
def joinSep (sep : Char) (ws : List JSString) : JSString :=
  match ws with
  | [] => []
  | w :: ws => w ++ tailJoinSep sep ws

/-! ## The greedy word wrap of `src/lib/utils.ts`

`wrapText(ctx, text, maxWidth, x)` splits `text` on spaces, seeds the current
line with the first word, and for each further word tests the width of
`currentLine + " " + word` against `maxWidth`, extending the line when it
fits and committing the line otherwise.  The canvas measuring function
`ctx.measureText(s).width` is abstracted as `measure : JSString → ℚ`. -/

/-- One wrapped line, as returned by `wrapText`: the line text and the
x-coordinate at which it is to be drawn. -/
structure WrapLine where
  text : JSString
  x : ℚ
deriving DecidableEq

/-- The word loop of `wrapText` (lines 51-65 of `src/lib/utils.ts`):
`current` is the accumulating current line, the list argument holds the
words not yet consumed. -/
def wrapAux (measure : JSString → ℚ) (maxWidth x : ℚ) :
    JSString → List JSString → List WrapLine
  | current, [] => [⟨current, x⟩]
  | current, w :: ws =>
    let testLine := current ++ ' ' :: w
    if measure testLine ≤ maxWidth then
      wrapAux measure maxWidth x testLine ws
    else
      ⟨current, x⟩ :: wrapAux measure maxWidth x w ws

/-- Embedding of `wrapText` from `src/lib/utils.ts`: split on spaces, seed
the current line with the first word (a split result is never empty), run
the word loop, and finally commit the last line. -/
def wrapText (measure : JSString → ℚ) (text : JSString) (maxWidth x : ℚ) :
    List WrapLine :=
  match splitSep ' ' text with
  | [] => []
  | w :: ws => wrapAux measure maxWidth x w ws

/-- Concrete measuring function used for witnesses: each character is one
unit wide. -/
def charCountMeasure : JSString → ℚ := fun s => (s.length : ℚ)

/-! ## The layout pipeline of `src/actions/png/generate-png-actions.ts`

The canvas is modelled as the list of text-draw commands issued on it
together with the fixed page dimensions; pixel coordinates (doubles in the
runtime) are modelled as exact rationals.  A command whose baseline lies
beyond the canvas bottom edge produces no visible pixels — this is the
clipping behaviour of the canvas backend. -/

/-- Model of JavaScript `String.prototype.trim`: removes leading and
trailing whitespace. -/
def jsTrim (s : JSString) : JSString :=
  ((s.dropWhile Char.isWhitespace).reverse.dropWhile Char.isWhitespace).reverse

/-- A4 page width in pixels at 300 DPI (line 84). -/
def pageWidth : ℕ := 2480

/-- A4 page height in pixels at 300 DPI (line 85). -/
def pageHeight : ℕ := 3508

/-- Page margin in pixels (line 118). -/
def pageMargin : ℚ := 60

/-- Bullet font size in pixels (line 115). -/
def bulletFontSize : ℚ := 42

/-- Headline baseline, at 5 percent of the page height (line 119). -/
def headlineBaselineY : ℚ := (pageHeight : ℚ) * 0.05

/-- Subheadline baseline, at 12.5 percent of the page height (line 120). -/
def subheadlineBaselineY : ℚ := (pageHeight : ℚ) * 0.125

/-- Vertical start of the bullet region, at 17.5 percent of the page height
(line 121). -/
def bulletStartY : ℚ := (pageHeight : ℚ) * 0.175

/-- Maximal text width: page width minus both margins (line 122). -/
def maxTextWidth : ℚ := (pageWidth : ℚ) - 2 * pageMargin

/-- Line height for bullet text: 1.2 times the bullet font size (line 144). -/
def bulletLineHeight : ℚ := bulletFontSize * 1.2

/-- The bullet marker glyph drawn at the left margin (line 148). -/
def bulletGlyph : JSString := ['•']

/-- One `ctx.fillText` call: the drawn string and its baseline position. -/
structure TextCmd where
  text : JSString
  x : ℚ
  y : ℚ
deriving DecidableEq

/-- The inner loop over the wrapped lines of one bullet (lines 152-155):
draw each line at the current cursor, advancing the cursor by one line
height per line.  Returns the issued commands and the final cursor. -/
def drawWrapped : List WrapLine → ℚ → List TextCmd × ℚ
  | [], y => ([], y)
  | l :: ls, y =>
    let rest := drawWrapped ls (y + bulletLineHeight)
    (⟨l.text, l.x, y⟩ :: rest.1, rest.2)

/-- Rendering of one bullet (lines 146-159): the marker glyph at the left
margin, then the wrapped lines at a 30-pixel indent, then an extra
half-line gap. -/
def drawBullet (measure : JSString → ℚ) (point : JSString) (y : ℚ) :
    List TextCmd × ℚ :=
  let wrapped := wrapText measure point (maxTextWidth - pageMargin) (pageMargin + 30)
  let body := drawWrapped wrapped y
  (⟨bulletGlyph, pageMargin, y⟩ :: body.1, body.2 + bulletLineHeight * 0.5)

/-- The loop over all bullet points (lines 146-159), threading the vertical
cursor. -/
def drawBullets (measure : JSString → ℚ) : List JSString → ℚ → List TextCmd × ℚ
  | [], y => ([], y)
  | p :: ps, y =>
    let b := drawBullet measure p y
    let rest := drawBullets measure ps b.2
    (b.1 ++ rest.1, rest.2)

/-- Bullet parsing from `summaryText` (lines 134-138): split on newlines,
keep the lines whose trimmed form starts with a dash and a space, and strip
those first two characters from the trimmed line. -/
def parseBullets (summaryText : JSString) : List JSString :=
  ((splitSep '\n' summaryText).filter
      (fun line => List.isPrefixOf ['-', ' '] (jsTrim line))).map
    (fun line => (jsTrim line).drop 2)

/-- Bullet parsing as the specification sentence describes it, for
comparison with `parseBullets`: those newline-separated lines whose
whitespace-trimmed form starts with a dash-space marker, each taken as the
trimmed line with its first two characters removed. -/
def claimedBullets (summaryText : JSString) : List JSString :=
  (splitSep '\n' summaryText).filterMap
    (fun line =>
      if (jsTrim line).take 2 = ['-', ' '] then some ((jsTrim line).drop 2)
      else none)

/-- The rendered page: the fixed dimensions of the allocated canvas and the
text-draw commands issued on it. -/
structure RenderedImage where
  width : ℕ
  height : ℕ
  cmds : List TextCmd

/-- The drawing phase of `generatePngAction` after the surface is allocated
(lines 108-168): headline and subheadline centred at the fixed baselines,
then the bullet loop from the bullet region start.  No operation on this
path can fail, so the model is a total function. -/
def renderPage (measure : JSString → ℚ)
    (headline subheadline summaryText : JSString) : RenderedImage :=
  let bullets := parseBullets summaryText
  let drawn := drawBullets measure bullets bulletStartY
  { width := pageWidth
    height := pageHeight
    cmds := ⟨headline, (pageWidth : ℚ) / 2, headlineBaselineY⟩ ::
        ⟨subheadline, (pageWidth : ℚ) / 2, subheadlineBaselineY⟩ :: drawn.1 }

/-- Canvas clipping semantics: a command contributes visible pixels only if
its baseline lies within the canvas. -/
def visibleCmds (img : RenderedImage) : List TextCmd :=
  img.cmds.filter (fun c => decide (0 ≤ c.y ∧ c.y ≤ (img.height : ℚ)))

/-- The vertical cursor after the whole bullet loop, compared against the
printable height on line 162. -/
def finalCursorY (measure : JSString → ℚ) (summaryText : JSString) : ℚ :=
  (drawBullets measure (parseBullets summaryText) bulletStartY).2

/-! ## The extraction pipeline of `src/actions/ai/fetch-article-actions.ts`

The DOM delivered by the cheerio loader is modelled as a forest of nodes
(the children of the document body); a cheerio selection by tag name is the
list of matching elements in document (preorder) order, and `.find` on a
selection collects the matching proper descendants of the selected
elements, deduplicated, in document order. -/

/-- A DOM node: a text node or an element with a tag and child nodes. -/
inductive HtmlNode where
  | txt (s : JSString)
  | elem (tag : JSString) (children : List HtmlNode)

mutual

/-- Model of cheerio `.text()`: the concatenated text of all text nodes of
the subtree, in document order. -/
def nodeText : HtmlNode → JSString
  | .txt s => s
  | .elem _ cs => nodesText cs

/-- Concatenated text of a forest, in document order. -/
def nodesText : List HtmlNode → JSString
  | [] => []
  | n :: ns => nodeText n ++ nodesText ns

end

/-- The tags removed before extraction (line 67). -/
def strippedTags : List JSString :=
  [("script").toList, ("style").toList, ("iframe").toList, ("noscript").toList,
    ("nav").toList, ("footer").toList, ("header").toList]

/-- Whether a tag is removed by the DOM reduction step. -/
def isStrippedTag (t : JSString) : Bool := strippedTags.contains t

/-- Model of `$("script, style, iframe, noscript, nav, footer, header").remove()`
(line 67): every element with a stripped tag is removed together with its
subtree. -/
def scrubNodes : List HtmlNode → List HtmlNode
  | [] => []
  | .txt s :: ns => .txt s :: scrubNodes ns
  | .elem t cs :: ns =>
    if isStrippedTag t then scrubNodes ns
    else .elem t (scrubNodes cs) :: scrubNodes ns

/-- The content tags collected by the extraction step (line 79): paragraphs
and headings of levels 1 to 6. -/
def contentTags : List JSString :=
  [("p").toList, ("h1").toList, ("h2").toList, ("h3").toList, ("h4").toList,
    ("h5").toList, ("h6").toList]

/-- Whether a tag is a content tag. -/
def isContentTag (t : JSString) : Bool := contentTags.contains t

/-- Whether a tag is the article tag. -/
def isArticleTag (t : JSString) : Bool := t = ("article").toList

/-- Whether a tag is the main tag. -/
def isMainTag (t : JSString) : Bool := t = ("main").toList

mutual

/-- Model of a cheerio tag selection `$(tag)` restricted to one subtree:
the elements whose tag satisfies `keep`, in document (preorder) order. -/
def allElems (keep : JSString → Bool) : HtmlNode → List HtmlNode
  | .txt _ => []
  | .elem t cs => (if keep t then [.elem t cs] else []) ++ allElemsList keep cs

/-- Model of a cheerio tag selection over a forest. -/
def allElemsList (keep : JSString → Bool) : List HtmlNode → List HtmlNode
  | [] => []
  | n :: ns => allElems keep n ++ allElemsList keep ns

end

mutual

/-- Model of `.find` on a cheerio selection by tag: collects, in document
order, the elements whose tag satisfies `keep` and that have a proper
ancestor whose tag satisfies `sel` (the flag `inside` records whether such
an ancestor has already been passed). -/
def findElems (sel keep : JSString → Bool) (inside : Bool) :
    HtmlNode → List HtmlNode
  | .txt _ => []
  | .elem t cs =>
    (if inside && keep t then [.elem t cs] else []) ++
      findElemsList sel keep (inside || sel t) cs

/-- `findElems` over a forest. -/
def findElemsList (sel keep : JSString → Bool) (inside : Bool) :
    List HtmlNode → List HtmlNode
  | [] => []
  | n :: ns => findElems sel keep inside n ++ findElemsList sel keep inside ns

end

/-- Content-root selection and text-element collection (lines 70-80): if
any article element exists take the content descendants of the article
elements, else if any main element exists take those of the main elements,
else take the content elements of the whole body (every node of the forest
is a proper descendant of the body, so `inside` starts true). -/
def selectedTextElements (f : List HtmlNode) : List HtmlNode :=
  if 0 < (allElemsList isArticleTag f).length then
    findElemsList isArticleTag isContentTag false f
  else if 0 < (allElemsList isMainTag f).length then
    findElemsList isMainTag isContentTag false f
  else
    findElemsList (fun _ => false) isContentTag true f

/-- The joined article text before normalization (lines 67-84): remove the
stripped tags, select the text elements, take the trimmed text of each,
drop the empty ones, and join with newlines. -/
def extractedJoinedText (f : List HtmlNode) : JSString :=
  joinSep '\n'
    (((selectedTextElements (scrubNodes f)).map
        (fun n => jsTrim (nodeText n))).filter
      (fun t => decide (0 < t.length)))

/-- Model of `replace(/\n{2,}/g, "\n")` (line 96): collapses every run of
two or more newlines into a single newline. -/
def collapseNewlines : JSString → JSString
  | [] => []
  | [c] => [c]
  | a :: b :: cs =>
    if a = '\n' ∧ b = '\n' then collapseNewlines (b :: cs)
    else a :: collapseNewlines (b :: cs)

/-- The typed outcomes of the extraction pipeline, one per distinct result
of `fetchArticleAction`. -/
inductive ExtractResult where
  | success (text : JSString)
  | invalidInput
  | accessDenied
  | notFound
  | fetchFailed (status : ℕ)
  | networkError
  | insufficientContent
deriving DecidableEq

/-- The possible outcomes of the HTTP GET: a response with a status and a
parsed body, or no response at all (connection, DNS or timeout failure). -/
inductive FetchOutcome where
  | resp (status : ℕ) (body : List HtmlNode)
  | noResponse

/-- The axios default `validateStatus`: a response resolves the request
exactly when its status is in the 2xx range; any other status makes the
request reject with the response attached. -/
def is2xx (status : ℕ) : Bool := 200 ≤ status && status < 300

/-- Embedding of `fetchArticleAction`: the URL gate (lines 38-46, with the
well-formedness verdict of the external URL parser as a boolean input),
then the outcome dispatch.  A 2xx response resolves; a resolved response
with status other than 200 hits the explicit status check (lines 56-61); a
200 response is parsed, reduced, collected, length-checked (line 87) and
normalized (line 96).  A non-2xx response rejects and is mapped by the
catch block (lines 103-131); a missing response maps to the network error
arm (lines 124-130). -/
def fetchArticleModel (urlOk : Bool) (outcome : FetchOutcome) : ExtractResult :=
  if urlOk = false then .invalidInput
  else
    match outcome with
    | .noResponse => .networkError
    | .resp status body =>
      if is2xx status then
        if status ≠ 200 then .fetchFailed status
        else
          let joined := extractedJoinedText body
          if joined.length < 50 then .insufficientContent
          else .success (jsTrim (collapseNewlines joined))
      else
        if status = 403 || status = 401 then .accessDenied
        else if status = 404 then .notFound
        else .fetchFailed status

/-- Whether a node is an element bearing a content tag. -/
def isContentElem : HtmlNode → Bool
  | .txt _ => false
  | .elem t _ => isContentTag t

/-- A summary of 38 one-character bullets: enough bullets to push the
vertical cursor past the printable height of the page. -/
def overflowSummary : JSString :=
  joinSep '\n' (List.replicate 38 (("- a").toList))

/-- A document body holding a single short paragraph, used to exercise the
sufficiency check. -/
def tinyArticleBody : List HtmlNode :=
  [HtmlNode.elem (("p").toList) [HtmlNode.txt (("hi").toList)]]

/-! ## Helper lemmas on splitting and joining -/

/-- A split result is never the empty list. -/
theorem splitSep_ne_nil (sep : Char) (s : JSString) : splitSep sep s ≠ [] := by
  induction s with
  | nil => simp [splitSep]
  | cons c cs ih =>
    by_cases h : c = sep
    · simp [splitSep, h]
    · simp only [splitSep, if_neg h]
      cases hs : splitSep sep cs with
      | nil => simp
      | cons w ws => simp

/-- Segments produced by a split never contain the separator. -/
theorem sep_not_mem_of_mem_splitSep {sep : Char} :
    ∀ {s w : JSString}, w ∈ splitSep sep s → sep ∉ w := by
  intro s
  induction s with
  | nil =>
    intro w hw
    simp [splitSep] at hw
    subst hw
    simp
  | cons c cs ih =>
    intro w hw
    by_cases h : c = sep
    · rw [splitSep, if_pos h] at hw
      rcases List.mem_cons.1 hw with rfl | hw
      · simp
      · exact ih hw
    · rw [splitSep, if_neg h] at hw
      cases hs : splitSep sep cs with
      | nil => exact absurd hs (splitSep_ne_nil sep cs)
      | cons v vs =>
        rw [hs] at hw
        rcases List.mem_cons.1 hw with rfl | hw
        · intro hmem
          rcases List.mem_cons.1 hmem with hv | hv
          · exact h hv.symm
          · exact ih (hs ▸ List.mem_cons_self v vs) hv
        · exact ih (hs ▸ List.mem_cons_of_mem v hw)

/-- Splitting a separator-free string yields that string as the only
segment. -/
theorem splitSep_of_not_mem {sep : Char} :
    ∀ {w : JSString}, sep ∉ w → splitSep sep w = [w] := by
  intro w
  induction w with
  | nil => intro _; rfl
  | cons c cs ih =>
    intro h
    have hc : ¬ c = sep := fun hcs => h (hcs ▸ List.mem_cons_self c cs)
    rw [splitSep, if_neg hc, ih (fun hm => h (List.mem_cons_of_mem c hm))]

/-- Splitting a string of the form `w ++ sep :: rest` with separator-free
`w` peels off `w` as the first segment. -/
theorem splitSep_append {sep : Char} :
    ∀ {w : JSString} (rest : JSString), sep ∉ w →
      splitSep sep (w ++ sep :: rest) = w :: splitSep sep rest := by
  intro w
  induction w with
  | nil =>
    intro rest _
    simp [splitSep]
  | cons c cs ih =>
    intro rest h
    have hc : ¬ c = sep := fun hcs => h (hcs ▸ List.mem_cons_self c cs)
    rw [List.cons_append, splitSep, if_neg hc,
      ih rest (fun hm => h (List.mem_cons_of_mem c hm))]

/-- Joining the one-element segment list gives back the segment. -/
theorem joinSep_single (sep : Char) (w : JSString) : joinSep sep [w] = w := by
  simp [joinSep, tailJoinSep]

/-- The tail join distributes over appending one last segment. -/
theorem tailJoinSep_append_single (sep : Char) (w : JSString) :
    ∀ ws : List JSString,
      tailJoinSep sep (ws ++ [w]) = tailJoinSep sep ws ++ sep :: w := by
  intro ws
  induction ws with
  | nil => simp [tailJoinSep]
  | cons v vs ih => simp [tailJoinSep, ih]

/-- Joining after appending one last segment appends a separator and the
segment. -/
theorem joinSep_append_single (sep : Char) (w v : JSString) (vs : List JSString) :
    joinSep sep ((v :: vs) ++ [w]) = joinSep sep (v :: vs) ++ sep :: w := by
  simp [joinSep, tailJoinSep_append_single]

/-- Merging the first two segments with an explicit separator character does
not change the join. -/
theorem joinSep_cons_cons (sep : Char) (a b : JSString) (ws : List JSString) :
    joinSep sep (a :: b :: ws) = joinSep sep ((a ++ sep :: b) :: ws) := by
  simp [joinSep, tailJoinSep]

/-- Joining the segments of a split reconstructs the original string. -/
theorem joinSep_splitSep (sep : Char) : ∀ s : JSString,
    joinSep sep (splitSep sep s) = s := by
  intro s
  induction s with
  | nil => rfl
  | cons c cs ih =>
    by_cases h : c = sep
    · subst h
      rw [splitSep, if_pos rfl]
      cases hs : splitSep c cs with
      | nil => exact absurd hs (splitSep_ne_nil c cs)
      | cons w ws =>
        rw [hs] at ih
        simp only [joinSep, tailJoinSep, List.nil_append]
        simp only [joinSep] at ih
        rw [ih]
    · rw [splitSep, if_neg h]
      cases hs : splitSep sep cs with
      | nil => exact absurd hs (splitSep_ne_nil sep cs)
      | cons w ws =>
        rw [hs] at ih
        simp only [joinSep, List.cons_append] at ih ⊢
        rw [ih]

/-- Splitting the join of non-empty, separator-free segment lists gives back
the segments. -/
theorem splitSep_joinSep (sep : Char) : ∀ ws : List JSString, ws ≠ [] →
    (∀ w ∈ ws, sep ∉ w) → splitSep sep (joinSep sep ws) = ws := by
  intro ws
  induction ws with
  | nil => intro h; exact absurd rfl h
  | cons w vs ih =>
    intro _ h
    cases vs with
    | nil =>
      simp only [joinSep, tailJoinSep, List.append_nil]
      exact splitSep_of_not_mem (h w (List.mem_cons_self w []))
    | cons v vs =>
      have hjoin : joinSep sep (w :: v :: vs) = w ++ sep :: joinSep sep (v :: vs) := by
        simp [joinSep, tailJoinSep]
      rw [hjoin, splitSep_append _ (h w (List.mem_cons_self w _)),
        ih (List.cons_ne_nil v vs) (fun u hu => h u (List.mem_cons_of_mem w hu))]

/-! ## Helper lemmas on the word loop -/

/-- The word loop always commits at least one line. -/
theorem wrapAux_length_pos (measure : JSString → ℚ) (maxWidth x : ℚ) :
    ∀ (ws : List JSString) (cur : JSString),
      0 < (wrapAux measure maxWidth x cur ws).length := by
  intro ws
  induction ws with
  | nil => intro cur; simp [wrapAux]
  | cons w ws ih =>
    intro cur
    rw [wrapAux]
    by_cases h : measure (cur ++ ' ' :: w) ≤ maxWidth <;> simp [h, ih]

/-- Every line committed by the word loop carries the x-coordinate argument. -/
theorem wrapAux_x_eq (measure : JSString → ℚ) (maxWidth x : ℚ) :
    ∀ (ws : List JSString) (cur : JSString) (l : WrapLine),
      l ∈ wrapAux measure maxWidth x cur ws → l.x = x := by
  intro ws
  induction ws with
  | nil =>
    intro cur l hl
    simp [wrapAux] at hl
    subst hl
    rfl
  | cons w ws ih =>
    intro cur l hl
    rw [wrapAux] at hl
    by_cases h : measure (cur ++ ' ' :: w) ≤ maxWidth
    · simp only [if_pos h] at hl
      exact ih _ l hl
    · simp only [if_neg h] at hl
      rcases List.mem_cons.1 hl with rfl | hl
      · rfl
      · exact ih _ l hl

/-- If the current line fits and every remaining word fits on a line of its
own, every committed line fits. -/
theorem wrapAux_width_le (measure : JSString → ℚ) (maxWidth x : ℚ) :
    ∀ (ws : List JSString) (cur : JSString), measure cur ≤ maxWidth →
      (∀ w ∈ ws, measure w ≤ maxWidth) →
      ∀ l ∈ wrapAux measure maxWidth x cur ws, measure l.text ≤ maxWidth := by
  intro ws
  induction ws with
  | nil =>
    intro cur hcur _ l hl
    simp [wrapAux] at hl
    subst hl
    exact hcur
  | cons w ws ih =>
    intro cur hcur hws l hl
    rw [wrapAux] at hl
    by_cases h : measure (cur ++ ' ' :: w) ≤ maxWidth
    · simp only [if_pos h] at hl
      exact ih _ h (fun v hv => hws v (List.mem_cons_of_mem w hv)) l hl
    · simp only [if_neg h] at hl
      rcases List.mem_cons.1 hl with rfl | hl
      · exact hcur
      · exact ih _ (hws w (List.mem_cons_self w ws))
          (fun v hv => hws v (List.mem_cons_of_mem w hv)) l hl

/-- The committed lines partition the words: re-splitting each line and
concatenating recovers the accumulated block followed by the remaining
words. -/
theorem wrapAux_words (measure : JSString → ℚ) (maxWidth x : ℚ) :
    ∀ (ws : List JSString) (block : List JSString), block ≠ [] →
      (∀ w ∈ block, ' ' ∉ w) → (∀ w ∈ ws, ' ' ∉ w) →
      ((wrapAux measure maxWidth x (joinSep ' ' block) ws).map
          (fun l => splitSep ' ' l.text)).flatten = block ++ ws := by
  intro ws
  induction ws with
  | nil =>
    intro block hb hbm _
    simp [wrapAux, splitSep_joinSep ' ' block hb hbm]
  | cons w ws ih =>
    intro block hb hbm hwm
    have hw : ' ' ∉ w := hwm w (List.mem_cons_self w ws)
    have hws : ∀ v ∈ ws, ' ' ∉ v := fun v hv => hwm v (List.mem_cons_of_mem w hv)
    rw [wrapAux]
    by_cases h : measure (joinSep ' ' block ++ ' ' :: w) ≤ maxWidth
    · simp only [if_pos h]
      obtain ⟨b, bs, rfl⟩ : ∃ b bs, block = b :: bs := by
        cases block with
        | nil => exact absurd rfl hb
        | cons b bs => exact ⟨b, bs, rfl⟩
      rw [← joinSep_append_single ' ' w b bs]
      rw [ih ((b :: bs) ++ [w]) (by simp)
        (by
          intro u hu
          rcases List.mem_append.1 hu with hu | hu
          · exact hbm u hu
          · rw [List.mem_singleton.1 hu]; exact hw)
        hws]
      simp
    · simp only [if_neg h, List.map_cons, List.flatten_cons]
      rw [splitSep_joinSep ' ' block hb hbm]
      have hrec := ih [w] (List.cons_ne_nil w [])
        (by intro u hu; rw [List.mem_singleton.1 hu]; exact hw) hws
      rw [joinSep_single] at hrec
      rw [hrec]
      simp

/-- If the whole remaining text fits within the width budget and the
measuring function is monotone under appending, the word loop commits a
single line holding everything. -/
theorem wrapAux_single_line (measure : JSString → ℚ) (maxWidth x : ℚ)
    (hmono : ∀ s t : JSString, measure s ≤ measure (s ++ t)) :
    ∀ (ws : List JSString) (cur : JSString),
      measure (joinSep ' ' (cur :: ws)) ≤ maxWidth →
      wrapAux measure maxWidth x cur ws = [⟨joinSep ' ' (cur :: ws), x⟩] := by
  intro ws
  induction ws with
  | nil =>
    intro cur _
    simp [wrapAux, joinSep_single]
  | cons w ws ih =>
    intro cur h
    have hsplit : joinSep ' ' (cur :: w :: ws) = (cur ++ ' ' :: w) ++ tailJoinSep ' ' ws := by
      simp [joinSep, tailJoinSep]
    have hfit : measure (cur ++ ' ' :: w) ≤ maxWidth := by
      calc measure (cur ++ ' ' :: w)
          ≤ measure ((cur ++ ' ' :: w) ++ tailJoinSep ' ' ws) := hmono _ _
        _ = measure (joinSep ' ' (cur :: w :: ws)) := by rw [hsplit]
        _ ≤ maxWidth := h
    rw [wrapAux]
    simp only [if_pos hfit]
    rw [ih (cur ++ ' ' :: w) (by rw [← joinSep_cons_cons]; exact h),
      ← joinSep_cons_cons]

/-! ## Claims about the greedy word wrap -/

/-- C1 (amended): for every bullet string and every text-measurement
function, if every individual word of the bullet measures at most
`maxWidth`, then every line produced by `wrapText` has measured width at
most `maxWidth`.  (Without the per-word bound the original claim fails: a
single word wider than `maxWidth` is committed as an over-wide line, see
the counterexample.) -/
theorem wrapText_lines_fit (measure : JSString → ℚ) (text : JSString)
    (maxWidth x : ℚ)
    (hwords : ∀ w ∈ splitSep ' ' text, measure w ≤ maxWidth) :
    ∀ l ∈ wrapText measure text maxWidth x, measure l.text ≤ maxWidth := by
  intro l hl
  rw [wrapText] at hl
  cases hs : splitSep ' ' text with
  | nil => exact absurd hs (splitSep_ne_nil ' ' text)
  | cons w ws =>
    rw [hs] at hl
    exact wrapAux_width_le measure maxWidth x ws w
      (hwords w (hs ▸ List.mem_cons_self w ws))
      (fun v hv => hwords v (hs ▸ List.mem_cons_of_mem w hv)) l hl

/-- C1, counterexample to the claim as stated: under the one-unit-per-character
measure with `maxWidth = 2`, the bullet string `aaaaaa b` requires wrapping
(total width 8 exceeds 2), yet `wrapText` commits the line `aaaaaa` of
width 6, which exceeds `maxWidth`. -/
theorem wrapText_lines_fit_counterexample :
    2 < charCountMeasure (("aaaaaa b").toList) ∧
    ∃ l ∈ wrapText charCountMeasure (("aaaaaa b").toList) 2 0,
      2 < charCountMeasure l.text := by
  decide

/-- C1 witness: a concrete instance of the amended claim, every word of
`ab cd` fits in width 2, and the committed line `ab` indeed measures at
most 2. -/
theorem wrapText_lines_fit_witness :
    charCountMeasure (("ab").toList) ≤ 2 :=
  wrapText_lines_fit charCountMeasure (("ab cd").toList) 2 0 (by decide)
    ⟨("ab").toList, 0⟩ (by decide)

/-- C2: for every bullet string, every measuring function and every width
budget, concatenating in order the words of all lines returned by
`wrapText` yields exactly the original word sequence of the input — no word
is lost, duplicated or reordered. -/
theorem wrapText_preserves_words (measure : JSString → ℚ) (text : JSString)
    (maxWidth x : ℚ) :
    ((wrapText measure text maxWidth x).map
        (fun l => splitSep ' ' l.text)).flatten = splitSep ' ' text := by
  rw [wrapText]
  cases hs : splitSep ' ' text with
  | nil => exact absurd hs (splitSep_ne_nil ' ' text)
  | cons w ws =>
    have hw : ' ' ∉ w := sep_not_mem_of_mem_splitSep (hs ▸ List.mem_cons_self w ws)
    have hws : ∀ v ∈ ws, ' ' ∉ v := fun v hv =>
      sep_not_mem_of_mem_splitSep (hs ▸ List.mem_cons_of_mem w hv)
    have hmain := wrapAux_words measure maxWidth x ws [w] (List.cons_ne_nil w [])
      (by intro u hu; rw [List.mem_singleton.1 hu]; exact hw) hws
    rw [joinSep_single] at hmain
    rw [hmain]
    simp

/-- C7: for every bullet string whose whole measured width fits within
`maxWidth`, under a measuring function monotone with respect to appending
(as canvas text measurement is), `wrapText` returns exactly one line whose
text equals the input, with no spurious break inserted. -/
theorem wrapText_no_spurious_break (measure : JSString → ℚ) (text : JSString)
    (maxWidth x : ℚ)
    (hmono : ∀ s t : JSString, measure s ≤ measure (s ++ t))
    (hfit : measure text ≤ maxWidth) :
    wrapText measure text maxWidth x = [⟨text, x⟩] := by
  cases hs : splitSep ' ' text with
  | nil => exact absurd hs (splitSep_ne_nil ' ' text)
  | cons w ws =>
    have hred : wrapText measure text maxWidth x = wrapAux measure maxWidth x w ws := by
      rw [wrapText, hs]
    have hj : joinSep ' ' (w :: ws) = text := by
      rw [← hs]; exact joinSep_splitSep ' ' text
    rw [hred,
      wrapAux_single_line measure maxWidth x hmono ws w (by rw [hj]; exact hfit), hj]

/-- C7 witness: the five-unit-wide string `ab cd` fits in a budget of 10
under the one-unit-per-character measure, and comes back as the single
unbroken line. -/
theorem wrapText_no_spurious_break_witness :
    wrapText charCountMeasure (("ab cd").toList) 10 3 = [⟨("ab cd").toList, 3⟩] :=
  wrapText_no_spurious_break charCountMeasure (("ab cd").toList) 10 3
    (fun s t => by
      have h : s.length ≤ (s ++ t).length := by simp
      simp only [charCountMeasure]
      exact_mod_cast h)
    (by decide)

/-! ## Helper lemmas on the layout loop -/

/-- Every line returned by `wrapText` carries the x-coordinate argument. -/
theorem wrapText_x_eq (measure : JSString → ℚ) (text : JSString) (maxWidth x : ℚ) :
    ∀ l ∈ wrapText measure text maxWidth x, l.x = x := by
  intro l hl
  rw [wrapText] at hl
  cases hs : splitSep ' ' text with
  | nil => exact absurd hs (splitSep_ne_nil ' ' text)
  | cons w ws =>
    rw [hs] at hl
    exact wrapAux_x_eq measure maxWidth x ws w l hl

/-- `wrapText` always returns at least one line. -/
theorem wrapText_length_pos (measure : JSString → ℚ) (text : JSString)
    (maxWidth x : ℚ) : 0 < (wrapText measure text maxWidth x).length := by
  cases hs : splitSep ' ' text with
  | nil => exact absurd hs (splitSep_ne_nil ' ' text)
  | cons w ws =>
    have hred : wrapText measure text maxWidth x = wrapAux measure maxWidth x w ws := by
      rw [wrapText, hs]
    rw [hred]
    exact wrapAux_length_pos measure maxWidth x ws w

/-- The line loop advances the cursor by one line height per wrapped line. -/
theorem drawWrapped_cursor : ∀ (ls : List WrapLine) (y : ℚ),
    (drawWrapped ls y).2 = y + (ls.length : ℚ) * bulletLineHeight := by
  intro ls
  induction ls with
  | nil => intro y; simp [drawWrapped]
  | cons l ls ih =>
    intro y
    simp only [drawWrapped]
    rw [ih]
    simp only [List.length_cons]
    push_cast
    ring

/-! ## Claims about totality and cursor movement of the layout -/

/-- C10: for every input string (the empty string included), every
measuring function, every width budget and every x-offset, `wrapText`
returns a non-empty list of lines all carrying the given x-offset; the
empty bullet yields exactly one empty line, and rendering any bullet —
empty ones included — strictly advances the vertical cursor, by at least
one and a half line heights. -/
theorem wrapText_always_lines :
    (∀ (measure : JSString → ℚ) (text : JSString) (maxWidth x : ℚ),
        0 < (wrapText measure text maxWidth x).length) ∧
    (∀ (measure : JSString → ℚ) (text : JSString) (maxWidth x : ℚ),
        (wrapText measure text maxWidth x).map WrapLine.x
          = List.replicate (wrapText measure text maxWidth x).length x) ∧
    (∀ (measure : JSString → ℚ) (maxWidth x : ℚ),
        wrapText measure [] maxWidth x = [⟨[], x⟩]) ∧
    (∀ (measure : JSString → ℚ) (point : JSString) (y : ℚ),
        y + bulletLineHeight * 1.5 ≤ (drawBullet measure point y).2) := by
  refine ⟨wrapText_length_pos, ?_, ?_, ?_⟩
  · intro measure text maxWidth x
    rw [List.eq_replicate_iff]
    constructor
    · simp
    · intro b hb
      rcases List.mem_map.1 hb with ⟨l, hl, rfl⟩
      exact wrapText_x_eq measure text maxWidth x l hl
  · intro measure maxWidth x
    rfl
  · intro measure point y
    have hlen : 0 <
        (wrapText measure point (maxTextWidth - pageMargin) (pageMargin + 30)).length :=
      wrapText_length_pos measure point (maxTextWidth - pageMargin) (pageMargin + 30)
    have h1 : (1 : ℚ) ≤
        ((wrapText measure point (maxTextWidth - pageMargin) (pageMargin + 30)).length : ℚ) := by
      exact_mod_cast hlen
    have hlh : (0 : ℚ) < bulletLineHeight := by
      norm_num [bulletLineHeight, bulletFontSize]
    show y + bulletLineHeight * 1.5 ≤
      (drawWrapped (wrapText measure point (maxTextWidth - pageMargin) (pageMargin + 30)) y).2
        + bulletLineHeight * 0.5
    rw [drawWrapped_cursor]
    nlinarith

/-! ## Helper lemmas for the overflow and bullet-parsing claims -/

/-- The overflow summary parses into 38 one-character bullets. -/
theorem parseBullets_overflowSummary :
    parseBullets overflowSummary = List.replicate 38 (("a").toList) := by
  decide

/-- Rendering `n` one-character bullets advances the cursor by one and a
half line heights per bullet. -/
theorem drawBullets_replicate_cursor : ∀ (n : ℕ) (y : ℚ),
    (drawBullets charCountMeasure (List.replicate n (("a").toList)) y).2
      = y + n * (bulletLineHeight * 1.5) := by
  intro n
  induction n with
  | zero => intro y; simp [drawBullets]
  | succ n ih =>
    intro y
    simp only [List.replicate_succ, drawBullets]
    rw [ih]
    have hone : wrapText charCountMeasure (("a").toList)
        (maxTextWidth - pageMargin) (pageMargin + 30)
        = [⟨("a").toList, pageMargin + 30⟩] := rfl
    simp only [drawBullet, hone, drawWrapped]
    push_cast
    ring

/-- Transporting a filter across a map: used to align the code-side and
claim-side bullet parsers. -/
theorem filter_map_eq_filterMap {α β : Type} (p : α → Bool) (f : α → β)
    (l : List α) :
    (l.filter p).map f = l.filterMap (fun a => if p a then some (f a) else none) := by
  induction l with
  | nil => rfl
  | cons a l ih =>
    by_cases h : p a <;> simp [List.filter_cons, List.filterMap_cons, h, ih]

/-- Pointwise equal option-valued functions filter-map equally. -/
theorem filterMap_ext {α β : Type} (f g : α → Option β) (l : List α)
    (h : ∀ a, f a = g a) : l.filterMap f = l.filterMap g := by
  induction l with
  | nil => rfl
  | cons a l ih => simp [List.filterMap_cons, h a, ih]

/-- Starting with the dash-space marker is the same as having it as the
two-character take. -/
theorem dashSpace_isPrefixOf_iff (l : JSString) :
    List.isPrefixOf ['-', ' '] l = true ↔ l.take 2 = ['-', ' '] := by
  rw [List.isPrefixOf_iff_prefix, List.prefix_iff_eq_take]
  constructor <;> intro h <;> simpa using h.symm

/-! ## Claims about overflow behaviour and bullet parsing -/

/-- C4: once the vertical cursor exceeds the printable height (canvas
height minus the bottom margin) during bullet rendering, rendering still
succeeds (the model of the post-allocation drawing path is a total
function), the returned image keeps the fixed 2480 by 3508 dimensions, and
no visible command lies past the canvas boundary — content beyond it is
silently clipped by the canvas, never an error. -/
theorem renderPage_overflow_clipped (measure : JSString → ℚ)
    (headline subheadline summaryText : JSString)
    (hov : (pageHeight : ℚ) - pageMargin < finalCursorY measure summaryText) :
    (renderPage measure headline subheadline summaryText).width = 2480 ∧
    (renderPage measure headline subheadline summaryText).height = 3508 ∧
    ∀ c ∈ visibleCmds (renderPage measure headline subheadline summaryText),
      c.y ≤ (pageHeight : ℚ) := by
  refine ⟨rfl, rfl, ?_⟩
  intro c hc
  have h := (List.mem_filter.1 hc).2
  exact (of_decide_eq_true h).2

/-- C4 witness: a 38-bullet summary drives the cursor to 3486.7, past the
printable height 3448, and the rendered image still reports the fixed
page dimensions. -/
theorem renderPage_overflow_clipped_witness :
    (renderPage charCountMeasure (("H").toList) (("S").toList) overflowSummary).width = 2480 ∧
    (renderPage charCountMeasure (("H").toList) (("S").toList) overflowSummary).height = 3508 := by
  have h := renderPage_overflow_clipped charCountMeasure (("H").toList) (("S").toList)
    overflowSummary (by
      rw [finalCursorY, parseBullets_overflowSummary, drawBullets_replicate_cursor]
      norm_num [bulletStartY, pageHeight, pageMargin, bulletLineHeight, bulletFontSize])
  exact ⟨h.1, h.2.1⟩

/-- C9: the bullets rendered onto the page are exactly the newline-separated
lines of the summary whose whitespace-trimmed form starts with a dash and a
space, each taken as the trimmed line with its first two characters
removed; indented markers are accepted, while a dash without a following
space and plain text lines are silently omitted (second conjunct), and the
render path draws precisely the parsed bullets (third conjunct). -/
theorem parseBullets_characterization :
    (∀ s : JSString, parseBullets s = claimedBullets s) ∧
    parseBullets (("intro\n  - kept\n-not\n- yes").toList)
      = [("kept").toList, ("yes").toList] ∧
    (∀ (measure : JSString → ℚ) (headline subheadline s : JSString),
        (renderPage measure headline subheadline s).cmds
          = ⟨headline, (pageWidth : ℚ) / 2, headlineBaselineY⟩ ::
            ⟨subheadline, (pageWidth : ℚ) / 2, subheadlineBaselineY⟩ ::
            (drawBullets measure (parseBullets s) bulletStartY).1) := by
  refine ⟨?_, by decide, fun _ _ _ _ => rfl⟩
  intro s
  rw [parseBullets, claimedBullets, filter_map_eq_filterMap]
  apply filterMap_ext
  intro a
  by_cases hc : (jsTrim a).take 2 = ['-', ' ']
  · rw [if_pos ((dashSpace_isPrefixOf_iff (jsTrim a)).2 hc), if_pos hc]
  · rw [if_neg (fun hh => hc ((dashSpace_isPrefixOf_iff (jsTrim a)).1 hh)), if_neg hc]

/-! ## Helper lemmas on the DOM traversals -/

mutual

/-- With the ancestor flag already set, `.find` collection coincides with
whole-subtree selection. -/
theorem findElems_true (sel keep : JSString → Bool) (n : HtmlNode) :
    findElems sel keep true n = allElems keep n :=
  match n with
  | .txt _ => rfl
  | .elem t cs => by
    simp only [findElems, allElems, Bool.true_and, Bool.true_or]
    rw [findElemsList_true sel keep cs]

/-- Forest version of `findElems_true`. -/
theorem findElemsList_true (sel keep : JSString → Bool) (ns : List HtmlNode) :
    findElemsList sel keep true ns = allElemsList keep ns :=
  match ns with
  | [] => rfl
  | n :: ns => by
    simp only [findElemsList, allElemsList]
    rw [findElems_true sel keep n, findElemsList_true sel keep ns]

end

mutual

/-- The `.find` collection is a sublist of the full preorder element list:
collection preserves document order. -/
theorem findElems_sublist (sel keep : JSString → Bool) (b : Bool) (n : HtmlNode) :
    List.Sublist (findElems sel keep b n) (allElems (fun _ => true) n) :=
  match n with
  | .txt _ => by simp [findElems, allElems]
  | .elem t cs => by
    have h := findElemsList_sublist sel keep (b || sel t) cs
    by_cases hk : b && keep t
    · simpa [findElems, allElems, hk] using h
    · simp only [findElems, allElems, hk, if_pos, if_neg, Bool.not_eq_true,
        List.nil_append, List.singleton_append]
      exact List.Sublist.cons _ h

/-- Forest version of `findElems_sublist`. -/
theorem findElemsList_sublist (sel keep : JSString → Bool) (b : Bool)
    (ns : List HtmlNode) :
    List.Sublist (findElemsList sel keep b ns) (allElemsList (fun _ => true) ns) :=
  match ns with
  | [] => by simp [findElemsList, allElemsList]
  | n :: ns => by
    simp only [findElemsList, allElemsList]
    exact List.Sublist.append (findElems_sublist sel keep b n)
      (findElemsList_sublist sel keep b ns)

end

mutual

/-- Everything collected with the content-tag filter is a content element. -/
theorem findElems_content_mem (sel : JSString → Bool) (b : Bool) (n : HtmlNode) :
    ∀ m ∈ findElems sel isContentTag b n, isContentElem m = true :=
  match n with
  | .txt _ => by simp [findElems]
  | .elem t cs => by
    intro m hm
    rw [findElems] at hm
    rcases List.mem_append.1 hm with hm | hm
    · by_cases hk : b && isContentTag t
      · rw [if_pos hk] at hm
        rw [List.mem_singleton.1 hm]
        simp only [isContentElem]
        exact (by simpa using hk : b = true ∧ isContentTag t = true).2
      · rw [if_neg hk] at hm
        cases hm
    · exact findElemsList_content_mem sel (b || sel t) cs m hm

/-- Forest version of `findElems_content_mem`. -/
theorem findElemsList_content_mem (sel : JSString → Bool) (b : Bool)
    (ns : List HtmlNode) :
    ∀ m ∈ findElemsList sel isContentTag b ns, isContentElem m = true :=
  match ns with
  | [] => by simp [findElemsList]
  | n :: ns => by
    intro m hm
    rw [findElemsList] at hm
    rcases List.mem_append.1 hm with hm | hm
    · exact findElems_content_mem sel b n m hm
    · exact findElemsList_content_mem sel b ns m hm

end

/-! ## Claims about the extraction pipeline -/

/-- C3: the extraction selects its content root by the ordered fallback —
the article containers when any article element exists, else the main
containers, else the whole body (equivalently, a whole-forest scan) — and
its output text is the newline-join of the non-empty trimmed texts of the
heading and paragraph elements found under that root.  Collection respects
DOM document order: the selected elements form a sublist of the preorder
element list, and each of them is a heading or paragraph element. -/
theorem extraction_content_selection (f : List HtmlNode) :
    (selectedTextElements f =
      if 0 < (allElemsList isArticleTag f).length then
        findElemsList isArticleTag isContentTag false f
      else if 0 < (allElemsList isMainTag f).length then
        findElemsList isMainTag isContentTag false f
      else allElemsList isContentTag f) ∧
    List.Sublist (selectedTextElements f) (allElemsList (fun _ => true) f) ∧
    (selectedTextElements f).all isContentElem = true ∧
    extractedJoinedText f =
      joinSep '\n'
        (((selectedTextElements (scrubNodes f)).map
            (fun n => jsTrim (nodeText n))).filter
          (fun t => decide (0 < t.length))) := by
  refine ⟨?_, ?_, ?_, rfl⟩
  · rw [selectedTextElements]
    split_ifs with h1 h2
    · rfl
    · rfl
    · exact findElemsList_true (fun _ => false) isContentTag f
  · rw [selectedTextElements]
    split_ifs with h1 h2
    · exact findElemsList_sublist isArticleTag isContentTag false f
    · exact findElemsList_sublist isMainTag isContentTag false f
    · exact findElemsList_sublist (fun _ => false) isContentTag true f
  · rw [List.all_eq_true]
    intro m hm
    rw [selectedTextElements] at hm
    split_ifs at hm with h1 h2
    · exact findElemsList_content_mem isArticleTag false f m hm
    · exact findElemsList_content_mem isMainTag false f m hm
    · exact findElemsList_content_mem (fun _ => false) true f m hm

/-- C5: a missing response maps to the network error; statuses 401 and 403
map to access denied; 404 maps to not found; any other non-2xx status maps
to a fetch failure carrying that status; and no non-2xx outcome ever maps
to success. -/
theorem fetch_status_mapping (status : ℕ) (body : List HtmlNode) :
    fetchArticleModel true FetchOutcome.noResponse = ExtractResult.networkError ∧
    ((status = 401 ∨ status = 403) →
      fetchArticleModel true (.resp status body) = .accessDenied) ∧
    (status = 404 → fetchArticleModel true (.resp status body) = .notFound) ∧
    (¬ (200 ≤ status ∧ status < 300) → status ≠ 401 → status ≠ 403 → status ≠ 404 →
      fetchArticleModel true (.resp status body) = .fetchFailed status) ∧
    (¬ (200 ≤ status ∧ status < 300) →
      ∀ t, fetchArticleModel true (.resp status body) ≠ .success t) := by
  refine ⟨rfl, ?_, ?_, ?_, ?_⟩
  · rintro (rfl | rfl) <;> rfl
  · rintro rfl
    rfl
  · intro hn h1 h3 h4
    have h2 : is2xx status = false := by
      simp only [is2xx, Bool.and_eq_false_iff, decide_eq_false_iff_not]
      omega
    simp [fetchArticleModel, h2, h1, h3, h4]
  · intro hn t
    have h2 : is2xx status = false := by
      simp only [is2xx, Bool.and_eq_false_iff, decide_eq_false_iff_not]
      omega
    simp only [fetchArticleModel, h2, Bool.false_eq_true, if_false, reduceIte]
    split_ifs <;> simp

/-- C5 witness: a 500 response maps to the fetch failure carrying 500, and
the missing-response outcome maps to the network error. -/
theorem fetch_status_mapping_witness :
    fetchArticleModel true (FetchOutcome.resp 500 []) = ExtractResult.fetchFailed 500 ∧
    fetchArticleModel true FetchOutcome.noResponse = ExtractResult.networkError :=
  ⟨(fetch_status_mapping 500 []).2.2.2.1 (by decide) (by decide) (by decide) (by decide),
    (fetch_status_mapping 500 []).1⟩

/-- C6: whenever the joined extracted text is shorter than 50 characters,
the pipeline fails with the insufficient-content outcome and never returns
a silently truncated success. -/
theorem short_extraction_fails (body : List HtmlNode)
    (hshort : (extractedJoinedText body).length < 50) :
    fetchArticleModel true (.resp 200 body) = .insufficientContent ∧
    ∀ t, fetchArticleModel true (.resp 200 body) ≠ .success t := by
  constructor
  · simp [fetchArticleModel, is2xx, hshort]
  · intro t
    simp [fetchArticleModel, is2xx, hshort]

/-- C6 witness: a body holding one two-character paragraph extracts to a
text of length 2 and is rejected as insufficient content. -/
theorem short_extraction_fails_witness :
    fetchArticleModel true (FetchOutcome.resp 200 tinyArticleBody)
      = ExtractResult.insufficientContent :=
  (short_extraction_fails tinyArticleBody (by
    simp [extractedJoinedText, scrubNodes, isStrippedTag, strippedTags,
      selectedTextElements, allElemsList, allElems, findElemsList, findElems,
      isArticleTag, isMainTag, isContentTag, contentTags, tinyArticleBody,
      nodeText, nodesText, jsTrim, joinSep, tailJoinSep])).1

/-- C8: for an input string the URL parser rejects, the pipeline fails with
the invalid-input outcome irrespective of any fetch outcome — in
particular, the result does not depend on the network at all. -/
theorem invalid_url_short_circuits (outcome : FetchOutcome) :
    fetchArticleModel false outcome = ExtractResult.invalidInput := rfl

end SummaryPipeline
